import Mathlib

/-!
Verification of the Olist time-to-event cohort construction pipeline
(`scripts/01_build_cohort_survival.py`), shallowly embedded.

Modelling conventions:
* A parsed timestamp column is `Option Int` (seconds); `none` is the
  missing marker produced by coercing unparseable values (`pd.to_datetime
  (..., errors="coerce")`).
* A pandas DataFrame is a `List` of row structures; column selection and
  renaming are structure construction.
* `sort_values` on several columns is a stable sort by the lexicographic
  key (pandas uses `np.lexsort`, which is stable); we model it with the
  stable `List.insertionSort` over a lexicographic key, with missing
  values ordered last (`na_position="last"`).
* `groupby(...).first()` after sorting by the group key keeps, for each
  key, the first row carrying it (all selected columns are non-null on
  the filtered tables, so the first-non-null-per-column semantics of pandas
  coincides with first-row-per-group).
* Durations are exact rationals: `duration_days = seconds / 86400`.
-/

namespace Olist

/-- A row of the orders table after timestamp parsing (lines 74-79). -/
structure Order where
  order_id : String
  customer_id : String
  order_status : Option String
  purchase_dt : Option Int
  delivery_dt : Option Int
deriving Repr, DecidableEq

/-- A row of the customers (entity-mapping) table. -/
structure Customer where
  customer_id : String
  customer_unique_id : String
deriving Repr, DecidableEq

/-- An orders row after the inner merge with the customers table (lines 87-91). -/
structure MOrder where
  order_id : String
  customer_id : String
  customer_unique_id : String
  order_status : Option String
  purchase_dt : Option Int
  delivery_dt : Option Int
deriving Repr, DecidableEq

/-- Line 83: `snapshot_ts = orders["purchase_dt"].max()` — the maximum
non-missing parsed purchase timestamp of the raw orders table (pandas
`max` skips missing values; all-missing gives the missing marker). -/
def snapshotOf (orders : List Order) : Option Int :=
  (orders.filterMap Order.purchase_dt).max?

/-- Lines 87-91: inner merge of orders with the customers table on
`customer_id` (for each left row, one output row per matching right row,
in left-then-right order, as pandas `merge(..., how="inner")`). -/
def mergeCustomers (orders : List Order) (customers : List Customer) : List MOrder :=
  orders.flatMap fun o =>
    (customers.filter fun c => c.customer_id == o.customer_id).map fun c =>
      { order_id := o.order_id, customer_id := o.customer_id,
        customer_unique_id := c.customer_unique_id,
        order_status := o.order_status, purchase_dt := o.purchase_dt,
        delivery_dt := o.delivery_dt }

/-- Sort key for an optional timestamp: missing values sort last
(pandas `na_position="last"`). -/
def optKey (x : Option Int) : Bool ×ₗ Int :=
  toLex (x.isNone, x.getD 0)

/-- Lines 102-104 sort key: `["customer_unique_id", "delivery_dt", "purchase_dt"]`.
Strings are compared through their character lists (code-point order, as in
Python). -/
def idxKey (a : MOrder) : List Char ×ₗ ((Bool ×ₗ Int) ×ₗ (Bool ×ₗ Int)) :=
  toLex (a.customer_unique_id.data, toLex (optKey a.delivery_dt, optKey a.purchase_dt))

section SortBy

variable {α : Type} {κ : Type} [LinearOrder κ]

/-- Stable sort of a table by a lexicographic key, the model of
`DataFrame.sort_values` (which is stable for multi-column keys). -/
def sortBy (k : α → κ) (l : List α) : List α :=
  l.insertionSort fun a b => k a ≤ k b

theorem sortBy_perm (k : α → κ) (l : List α) : List.Perm (sortBy k l) l :=
  List.perm_insertionSort _ l

theorem mem_sortBy {k : α → κ} {l : List α} {x : α} : x ∈ sortBy k l ↔ x ∈ l :=
  List.mem_insertionSort _

theorem sortBy_sorted (k : α → κ) (l : List α) :
    (sortBy k l).Sorted fun a b => k a ≤ k b := by
  haveI : IsTotal α fun a b => k a ≤ k b := ⟨fun a b => le_total (k a) (k b)⟩
  haveI : IsTrans α fun a b => k a ≤ k b := ⟨fun _ _ _ h h' => le_trans h h'⟩
  exact List.sorted_insertionSort _ l

/-- Two sorted lists that are permutations of each other and whose members
have pairwise distinct keys (or are equal) coincide. -/
theorem sorted_perm_eq {k : α → κ} :
    ∀ {l₁ l₂ : List α}, List.Perm l₁ l₂ →
    (l₁.Sorted fun a b => k a ≤ k b) → (l₂.Sorted fun a b => k a ≤ k b) →
    (∀ x ∈ l₁, ∀ y ∈ l₁, k x = k y → x = y) → l₁ = l₂
  | [], l₂, hp, _, _, _ => hp.nil_eq
  | a :: t₁, l₂, hp, hs₁, hs₂, hinj => by
    have ha₂ : a ∈ l₂ := hp.subset (List.mem_cons_self a t₁)
    cases l₂ with
    | nil => exact absurd hp (by simp)
    | cons b t₂ =>
      have hb₁ : b ∈ a :: t₁ := hp.symm.subset (List.mem_cons_self b t₂)
      have hab : k a ≤ k b := by
        rcases List.mem_cons.mp hb₁ with h | h
        · rw [h]
        · exact List.rel_of_sorted_cons hs₁ _ h
      have hba : k b ≤ k a := by
        rcases List.mem_cons.mp ha₂ with h | h
        · rw [h]
        · exact List.rel_of_sorted_cons hs₂ _ h
      have heq : a = b := hinj a (List.mem_cons_self a t₁) b hb₁ (le_antisymm hab hba)
      subst heq
      have htp : List.Perm t₁ t₂ := hp.cons_inv
      have : t₁ = t₂ :=
        sorted_perm_eq htp hs₁.of_cons hs₂.of_cons fun x hx y hy =>
          hinj x (List.mem_cons_of_mem a hx) y (List.mem_cons_of_mem a hy)
      rw [this]

/-- Sorting by a key is independent of the input order whenever distinct
members have distinct keys. -/
theorem sortBy_eq_of_perm {k : α → κ} {l₁ l₂ : List α} (hp : List.Perm l₁ l₂)
    (hinj : ∀ x ∈ l₁, ∀ y ∈ l₁, k x = k y → x = y) :
    sortBy k l₁ = sortBy k l₂ := by
  refine sorted_perm_eq ((sortBy_perm k l₁).trans (hp.trans (sortBy_perm k l₂).symm))
    (sortBy_sorted k l₁) (sortBy_sorted k l₂) ?_
  intro x hx y hy
  exact hinj x (mem_sortBy.mp hx) y (mem_sortBy.mp hy)

end SortBy

section FirstPer

variable {α : Type}

/-- Worker for `firstPer`: keep each row whose key was not seen before. -/
def firstPerAux (g : α → String) (seen : List String) : List α → List α
  | [] => []
  | a :: rest =>
    if g a ∈ seen then firstPerAux g seen rest
    else a :: firstPerAux g (g a :: seen) rest

/-- Model of `groupby(key).first()` on a table already sorted by the group
key: keep, for each key value, the first row carrying it. -/
def firstPer (g : α → String) (l : List α) : List α :=
  firstPerAux g [] l

theorem firstPerAux_mem {g : α → String} :
    ∀ {l : List α} {seen : List String} {x : α},
      x ∈ firstPerAux g seen l → x ∈ l ∧ g x ∉ seen
  | [], _, _, hx => by simp [firstPerAux] at hx
  | a :: rest, seen, x, hx => by
    rw [firstPerAux] at hx
    by_cases ha : g a ∈ seen
    · rw [if_pos ha] at hx
      obtain ⟨h₁, h₂⟩ := firstPerAux_mem hx
      exact ⟨List.mem_cons_of_mem a h₁, h₂⟩
    · rw [if_neg ha] at hx
      rcases List.mem_cons.mp hx with h | h
      · exact ⟨h ▸ List.mem_cons_self a rest, h ▸ ha⟩
      · obtain ⟨h₁, h₂⟩ := firstPerAux_mem h
        exact ⟨List.mem_cons_of_mem a h₁, fun hc => h₂ (List.mem_cons_of_mem _ hc)⟩

theorem firstPer_subset {g : α → String} {l : List α} {x : α}
    (hx : x ∈ firstPer g l) : x ∈ l :=
  (firstPerAux_mem hx).1

theorem firstPerAux_keys_distinct {g : α → String} :
    ∀ {l : List α} {seen : List String},
      (firstPerAux g seen l).Pairwise fun x y => g x ≠ g y
  | [], _ => by simp [firstPerAux]
  | a :: rest, seen => by
    rw [firstPerAux]
    by_cases ha : g a ∈ seen
    · rw [if_pos ha]; exact firstPerAux_keys_distinct
    · rw [if_neg ha]
      refine List.pairwise_cons.mpr ⟨?_, firstPerAux_keys_distinct⟩
      intro y hy
      have := (firstPerAux_mem hy).2
      intro hgy
      exact this (hgy ▸ List.mem_cons_self _ _)

theorem firstPer_keys_distinct {g : α → String} {l : List α} :
    (firstPer g l).Pairwise fun x y => g x ≠ g y :=
  firstPerAux_keys_distinct

theorem firstPerAux_covers {g : α → String} :
    ∀ {l : List α} {seen : List String} {x : α}, x ∈ l → g x ∉ seen →
      ∃ y ∈ firstPerAux g seen l, g y = g x
  | [], _, _, hx, _ => absurd hx (List.not_mem_nil _)
  | a :: rest, seen, x, hx, hseen => by
    rw [firstPerAux]
    by_cases ha : g a ∈ seen
    · rw [if_pos ha]
      rcases List.mem_cons.mp hx with h | h
      · exact absurd (show g x ∈ seen by rw [h]; exact ha) hseen
      · exact firstPerAux_covers h hseen
    · rw [if_neg ha]
      by_cases hga : g x = g a
      · exact ⟨a, List.mem_cons_self _ _, hga.symm⟩
      · rcases List.mem_cons.mp hx with h | h
        · exact absurd (congrArg g h) hga
        · have : g x ∉ g a :: seen := by
            intro hc
            rcases List.mem_cons.mp hc with h' | h'
            · exact hga h'
            · exact hseen h'
          obtain ⟨y, hy, hgy⟩ := firstPerAux_covers h this
          exact ⟨y, List.mem_cons_of_mem a hy, hgy⟩

theorem firstPer_covers {g : α → String} {l : List α} {x : α} (hx : x ∈ l) :
    ∃ y ∈ firstPer g l, g y = g x :=
  firstPerAux_covers hx (List.not_mem_nil _)

theorem firstPerAux_min {g : α → String} {le : α → α → Prop} (hrefl : ∀ a, le a a) :
    ∀ {l : List α} {seen : List String}, l.Pairwise le → ∀ {x : α},
      x ∈ firstPerAux g seen l → ∀ y ∈ l, g y = g x → le x y
  | [], _, _, x, hx => by simp [firstPerAux] at hx
  | a :: rest, seen, hpw, x, hx => by
    rw [firstPerAux] at hx
    obtain ⟨hle, hpw'⟩ := List.pairwise_cons.mp hpw
    intro y hy hgy
    by_cases ha : g a ∈ seen
    · rw [if_pos ha] at hx
      rcases List.mem_cons.mp hy with h | h
      · exact absurd (show g x ∈ seen by rw [← hgy, h]; exact ha) ((firstPerAux_mem hx).2)
      · exact firstPerAux_min hrefl hpw' hx y h hgy
    · rw [if_neg ha] at hx
      rcases List.mem_cons.mp hx with h | h
      · subst h
        rcases List.mem_cons.mp hy with h' | h'
        · exact h' ▸ hrefl x
        · exact hle y h'
      · have hgxa : g x ≠ g a := by
          intro hc
          exact (firstPerAux_mem h).2 (hc ▸ List.mem_cons_self _ _)
        rcases List.mem_cons.mp hy with h' | h'
        · exact absurd (hgy ▸ congrArg g h') (by simpa [eq_comm] using hgxa)
        · exact firstPerAux_min hrefl hpw' h y h' hgy

/-- On a list sorted by a reflexive-transitive relation, the first row kept
for a key is related to every row of that key. -/
theorem firstPer_min {g : α → String} {le : α → α → Prop} (hrefl : ∀ a, le a a)
    {l : List α} (hpw : l.Pairwise le) {x : α} (hx : x ∈ firstPer g l) :
    ∀ y ∈ l, g y = g x → le x y :=
  firstPerAux_min hrefl hpw hx

theorem firstPer_congr {g : α → String} {l₁ l₂ : List α} (h : l₁ = l₂) :
    firstPer g l₁ = firstPer g l₂ := by rw [h]

end FirstPer

/-- Lines 95-99 filter predicate: status `"delivered"` (a missing status is
not equal to it) with both delivery and purchase timestamps present. -/
def isDelivered (o : MOrder) : Bool :=
  o.order_status == some "delivered" && o.delivery_dt.isSome && o.purchase_dt.isSome

/-- A row of the index-event table (lines 105-112): renamed columns
`{customer_unique_id, index_order_id, p0, t0}`. -/
structure IndexRow where
  customer_unique_id : String
  index_order_id : String
  p0 : Option Int
  t0 : Option Int
deriving Repr, DecidableEq

/-- Column renaming/selection of lines 106-112. -/
def mkIndexRow (o : MOrder) : IndexRow :=
  { customer_unique_id := o.customer_unique_id, index_order_id := o.order_id,
    p0 := o.purchase_dt, t0 := o.delivery_dt }

/-- Lines 95-112: filter to delivered rows with both timestamps, sort by
(customer, delivery, purchase), keep the first row per customer, rename. -/
def indexOrdersOf (merged : List MOrder) : List IndexRow :=
  (firstPer MOrder.customer_unique_id (sortBy idxKey (merged.filter isDelivered))).map
    mkIndexRow

/-- Line 118: `excluded_statuses = {"canceled", "unavailable"}`. -/
def excludedStatuses : List String := ["canceled", "unavailable"]

/-- Lines 119-122: status present (`notna`) and not in the excluded set. -/
def validStatus (st : Option String) : Bool :=
  match st with
  | none => false
  | some s => !(excludedStatuses.contains s)

/-- A follow-up candidate row: merged-orders columns plus the `t0` brought
in by the inner join with the index table (lines 124-128). -/
structure Candidate where
  order_id : String
  customer_unique_id : String
  order_status : Option String
  purchase_dt : Option Int
  t0 : Option Int
deriving Repr, DecidableEq

/-- pandas `>` on timestamp columns: false when either side is missing. -/
def dtGT (a b : Option Int) : Bool :=
  match a, b with
  | some x, some y => y < x
  | _, _ => false

/-- Line 135 sort key: `["customer_unique_id", "purchase_dt"]`. -/
def repKey (c : Candidate) : List Char ×ₗ (Bool ×ₗ Int) :=
  toLex (c.customer_unique_id.data, optKey c.purchase_dt)

/-- A row of the follow-up table (lines 136-143): renamed columns
`{customer_unique_id, repurchase_order_id, p1, repurchase_order_status}`. -/
structure RepRow where
  customer_unique_id : String
  repurchase_order_id : String
  p1 : Option Int
  repurchase_order_status : Option String
deriving Repr, DecidableEq

/-- Column renaming/selection of lines 137-143. -/
def mkRepRow (c : Candidate) : RepRow :=
  { customer_unique_id := c.customer_unique_id, repurchase_order_id := c.order_id,
    p1 := c.purchase_dt, repurchase_order_status := c.order_status }

/-- The joined row of lines 124-128: the valid-status order row together
with the `t0` of its entity from the index table. -/
def mkCandidate (o : MOrder) (ix : IndexRow) : Candidate :=
  { order_id := o.order_id, customer_unique_id := o.customer_unique_id,
    order_status := o.order_status, purchase_dt := o.purchase_dt, t0 := ix.t0 }

/-- Lines 124-133: valid-status rows inner-joined with the index table on
`customer_unique_id`, then the temporal filter (purchase timestamp present
and strictly after `t0`). -/
def candidatesOf (merged : List MOrder) (indexOrders : List IndexRow) : List Candidate :=
  let valid := merged.filter fun o => validStatus o.order_status
  let candidates0 := valid.flatMap fun o =>
    (indexOrders.filter fun ix => ix.customer_unique_id == o.customer_unique_id).map
      fun ix => mkCandidate o ix
  candidates0.filter fun c => c.purchase_dt.isSome && dtGT c.purchase_dt c.t0

/-- Lines 118-143: the temporally-filtered candidates, sorted by
(customer, purchase); keep the first row per customer, rename. -/
def firstRepOf (merged : List MOrder) (indexOrders : List IndexRow) : List RepRow :=
  (firstPer Candidate.customer_unique_id
    (sortBy repKey (candidatesOf merged indexOrders))).map mkRepRow

/-- A row of the assembled cohort table (lines 146-154). -/
structure CohortRow where
  customer_unique_id : String
  index_order_id : String
  p0 : Option Int
  t0 : Option Int
  repurchase_order_id : Option String
  p1 : Option Int
  repurchase_order_status : Option String
  event : Nat
  duration_days : Option ℚ
deriving Repr, DecidableEq

/-- Lines 150-154: `np.where(event == 1, (p1 - t0)/86400 days,
(snapshot - t0)/86400 days)`; a branch with a missing operand yields the
missing marker for that branch. -/
def dayDiff (a b : Option Int) : Option ℚ :=
  match a, b with
  | some x, some y => some (mkRat (x - y) 86400)
  | _, _ => none

def durationOf (snapshot : Option Int) (p1 t0 : Option Int) (event : Nat) : Option ℚ :=
  if event = 1 then dayDiff p1 t0 else dayDiff snapshot t0

/-- One assembled cohort row from an index row and optional follow-up
fields; line 147: `event = 1` iff `p1` present. -/
def mkCohortRow (snapshot : Option Int) (ix : IndexRow) (roid : Option String)
    (p1 : Option Int) (rst : Option String) : CohortRow :=
  let event : Nat := if p1.isSome then 1 else 0
  { customer_unique_id := ix.customer_unique_id, index_order_id := ix.index_order_id,
    p0 := ix.p0, t0 := ix.t0, repurchase_order_id := roid, p1 := p1,
    repurchase_order_status := rst, event := event,
    duration_days := durationOf snapshot p1 ix.t0 event }

/-- Lines 146-154: left join of the index table with the follow-up table on
`customer_unique_id` (every index row kept; unmatched rows get missing
follow-up fields), then event indicator and duration columns. -/
def assembleCohort (snapshot : Option Int) (indexOrders : List IndexRow)
    (firstRep : List RepRow) : List CohortRow :=
  indexOrders.flatMap fun ix =>
    let ms := firstRep.filter fun r => r.customer_unique_id == ix.customer_unique_id
    if ms.isEmpty then [mkCohortRow snapshot ix none none none]
    else ms.map fun r =>
      mkCohortRow snapshot ix (some r.repurchase_order_id) r.p1 r.repurchase_order_status

/-- Lines 156-158 keep-predicate: duration present and non-negative. -/
def validRow (r : CohortRow) : Bool :=
  match r.duration_days with
  | some d => decide (0 ≤ d)
  | none => false

/-- The assembled cohort before the validity filter (lines 146-154). -/
def cohortPreOf (orders : List Order) (customers : List Customer) : List CohortRow :=
  let merged := mergeCustomers orders customers
  let indexOrders := indexOrdersOf merged
  assembleCohort (snapshotOf orders) indexOrders (firstRepOf merged indexOrders)

/-- The final cohort (lines 156-158): validity filter applied. -/
def cohortOf (orders : List Order) (customers : List Customer) : List CohortRow :=
  (cohortPreOf orders customers).filter validRow

/-- The logical payloads computed by `main` after the input check. -/
structure BuildResult where
  snapshot_ts : Option Int
  index_orders : List IndexRow
  first_rep : List RepRow
  cohort : List CohortRow
deriving Repr, DecidableEq

/-- Lines 74-158 of `main`, after the file-existence check: the pure
pipeline from the two parsed input tables to the outputs. -/
def buildCohort (orders : List Order) (customers : List Customer) : BuildResult :=
  let snapshot := snapshotOf orders
  let merged := mergeCustomers orders customers
  let indexOrders := indexOrdersOf merged
  let firstRep := firstRepOf merged indexOrders
  ⟨snapshot, indexOrders, firstRep,
    (assembleCohort snapshot indexOrders firstRep).filter validRow⟩

/-- The error payload of the `FileNotFoundError` at lines 65-71: the list
of missing input paths and the fixed resolution text. -/
structure MissingInputError where
  missing : List String
  solution : String
deriving Repr, DecidableEq

/-- Lines 62-63: the two required input paths under the data directory. -/
def ordersPath (dataDir : String) : String := dataDir ++ "/olist_orders_dataset.csv"

def customersPath (dataDir : String) : String := dataDir ++ "/olist_customers_dataset.csv"

/-- Lines 61-158 of `main`: if either required input file is absent, raise
(before reading any data) an error naming every missing path together with
the resolution options; otherwise run the pipeline. -/
def runMain (ordersExists customersExists : Bool) (dataDir : String)
    (orders : List Order) (customers : List Customer) :
    Except MissingInputError BuildResult :=
  if ordersExists && customersExists then
    Except.ok (buildCohort orders customers)
  else
    Except.error
      { missing :=
          (if ordersExists then [] else [ordersPath dataDir]) ++
          (if customersExists then [] else [customersPath dataDir]),
        solution :=
          "Provide --data-dir, set $OLIST_RAW_DIR, or place files under repo/raw_data/" }

/-! ### Structural lemmas about the pipeline stages -/

theorem eq_of_pairwise_key_ne {α : Type} {g : α → String} :
    ∀ {l : List α}, (l.Pairwise fun x y => g x ≠ g y) →
      ∀ {a b : α}, a ∈ l → b ∈ l → g a = g b → a = b
  | [], _, a, _, ha, _, _ => absurd ha (List.not_mem_nil a)
  | x :: t, hpw, a, b, ha, hb, hg => by
    obtain ⟨hx, hpw'⟩ := List.pairwise_cons.mp hpw
    rcases List.mem_cons.mp ha with h₁ | h₁ <;> rcases List.mem_cons.mp hb with h₂ | h₂
    · rw [h₁, h₂]
    · exact absurd (show g x = g b by rw [← h₁]; exact hg) (hx b h₂)
    · exact absurd (show g x = g a by rw [← h₂]; exact hg.symm) (hx a h₁)
    · exact eq_of_pairwise_key_ne hpw' h₁ h₂ hg

theorem isDelivered_iff {o : MOrder} :
    isDelivered o = true ↔
      o.order_status = some "delivered" ∧ o.delivery_dt.isSome ∧ o.purchase_dt.isSome := by
  simp [isDelivered, Bool.and_eq_true, and_assoc]

/-- Every index row arises from a delivered source row that is minimal for
the (customer, delivery, purchase) sort key within its entity. -/
theorem indexOrders_spec {merged : List MOrder} {r : IndexRow}
    (hr : r ∈ indexOrdersOf merged) :
    ∃ o, o ∈ merged ∧ isDelivered o ∧ r = mkIndexRow o ∧
      ∀ o' ∈ merged, isDelivered o' →
        o'.customer_unique_id = o.customer_unique_id → idxKey o ≤ idxKey o' := by
  obtain ⟨f, hf, hfr⟩ := List.mem_map.mp hr
  have hf' : f ∈ merged.filter isDelivered := mem_sortBy.mp (firstPer_subset hf)
  obtain ⟨h₁, h₂⟩ := List.mem_filter.mp hf'
  refine ⟨f, h₁, h₂, hfr.symm, ?_⟩
  intro o' ho' hd' hcu
  exact firstPer_min (fun a => le_refl (idxKey a))
    (sortBy_sorted idxKey _) hf o'
    (mem_sortBy.mpr (List.mem_filter.mpr ⟨ho', hd'⟩)) hcu

theorem indexOrders_covers {merged : List MOrder} {o : MOrder}
    (ho : o ∈ merged) (hd : isDelivered o) :
    ∃ r ∈ indexOrdersOf merged, r.customer_unique_id = o.customer_unique_id := by
  have hmem : o ∈ sortBy idxKey (merged.filter isDelivered) :=
    mem_sortBy.mpr (List.mem_filter.mpr ⟨ho, hd⟩)
  obtain ⟨y, hy, hgy⟩ := @firstPer_covers MOrder MOrder.customer_unique_id _ _ hmem
  exact ⟨mkIndexRow y, List.mem_map_of_mem _ hy, hgy⟩

theorem indexOrders_keys_distinct (merged : List MOrder) :
    (indexOrdersOf merged).Pairwise
      fun a b => a.customer_unique_id ≠ b.customer_unique_id := by
  exact (@firstPer_keys_distinct MOrder MOrder.customer_unique_id _).map _ fun a b h => h

theorem indexOrders_t0_p0_isSome {merged : List MOrder} {r : IndexRow}
    (hr : r ∈ indexOrdersOf merged) : r.t0.isSome ∧ r.p0.isSome := by
  obtain ⟨o, _, hd, hro, _⟩ := indexOrders_spec hr
  obtain ⟨_, h₂, h₃⟩ := isDelivered_iff.mp hd
  subst hro
  exact ⟨h₂, h₃⟩

theorem dtGT_iff {a b : Option Int} :
    dtGT a b = true ↔ ∃ x y, a = some x ∧ b = some y ∧ y < x := by
  cases a <;> cases b <;> simp [dtGT]

theorem mem_candidatesOf {merged : List MOrder} {I : List IndexRow} {c : Candidate} :
    c ∈ candidatesOf merged I ↔
      ∃ o ∈ merged, ∃ ix ∈ I, validStatus o.order_status ∧
        ix.customer_unique_id = o.customer_unique_id ∧ c = mkCandidate o ix ∧
        c.purchase_dt.isSome ∧ dtGT c.purchase_dt c.t0 := by
  constructor
  · intro hc
    obtain ⟨hc0, hflt⟩ := List.mem_filter.mp hc
    obtain ⟨o, ho, hmap⟩ := List.mem_flatMap.mp hc0
    obtain ⟨ho', hval⟩ := List.mem_filter.mp ho
    obtain ⟨ix, hix, hcix⟩ := List.mem_map.mp hmap
    obtain ⟨hix', hcu⟩ := List.mem_filter.mp hix
    obtain ⟨hp, hgt⟩ : c.purchase_dt.isSome = true ∧ dtGT c.purchase_dt c.t0 = true := by
      simpa using hflt
    exact ⟨o, ho', ix, hix', hval, by simpa using hcu, hcix.symm, hp, hgt⟩
  · rintro ⟨o, ho, ix, hix, hval, hcu, hc, hp, hgt⟩
    refine List.mem_filter.mpr ⟨?_, by simp [hp, hgt]⟩
    refine List.mem_flatMap.mpr ⟨o, List.mem_filter.mpr ⟨ho, hval⟩, ?_⟩
    refine List.mem_map.mpr ⟨ix, List.mem_filter.mpr ⟨hix, by simpa using hcu⟩, hc.symm⟩

/-- Every follow-up row arises from a candidate that is minimal for the
(customer, purchase) sort key within its entity. -/
theorem firstRep_spec {merged : List MOrder} {I : List IndexRow} {r : RepRow}
    (hr : r ∈ firstRepOf merged I) :
    ∃ c, c ∈ candidatesOf merged I ∧ r = mkRepRow c ∧
      ∀ c' ∈ candidatesOf merged I,
        c'.customer_unique_id = c.customer_unique_id → repKey c ≤ repKey c' := by
  obtain ⟨f, hf, hfr⟩ := List.mem_map.mp hr
  have hf' : f ∈ candidatesOf merged I := mem_sortBy.mp (firstPer_subset hf)
  refine ⟨f, hf', hfr.symm, ?_⟩
  intro c' hc' hcu
  exact firstPer_min (fun a => le_refl (repKey a))
    (sortBy_sorted repKey _) hf c' (mem_sortBy.mpr hc') hcu

theorem firstRep_covers {merged : List MOrder} {I : List IndexRow} {c : Candidate}
    (hc : c ∈ candidatesOf merged I) :
    ∃ r ∈ firstRepOf merged I, r.customer_unique_id = c.customer_unique_id := by
  have hmem : c ∈ sortBy repKey (candidatesOf merged I) := mem_sortBy.mpr hc
  obtain ⟨y, hy, hgy⟩ := @firstPer_covers Candidate Candidate.customer_unique_id _ _ hmem
  exact ⟨mkRepRow y, List.mem_map_of_mem _ hy, hgy⟩

theorem firstRep_keys_distinct (merged : List MOrder) (I : List IndexRow) :
    (firstRepOf merged I).Pairwise
      fun a b => a.customer_unique_id ≠ b.customer_unique_id := by
  exact (@firstPer_keys_distinct Candidate Candidate.customer_unique_id _).map _ fun a b h => h

/-- Every follow-up row carries a present purchase timestamp strictly
greater than the `t0` of some index row of the same entity. -/
theorem firstRep_p1_gt_t0 {merged : List MOrder} {I : List IndexRow} {r : RepRow}
    (hr : r ∈ firstRepOf merged I) :
    ∃ ix ∈ I, ix.customer_unique_id = r.customer_unique_id ∧
      ∃ p t, r.p1 = some p ∧ ix.t0 = some t ∧ t < p := by
  obtain ⟨c, hc, hrc, _⟩ := firstRep_spec hr
  obtain ⟨o, _, ix, hix, _, hcu, hcand, _, hgt⟩ := mem_candidatesOf.mp hc
  obtain ⟨p, t, hp, ht, hlt⟩ := dtGT_iff.mp hgt
  subst hrc
  refine ⟨ix, hix, ?_, p, t, hp, ?_, hlt⟩
  · rw [hcand] at *
    exact hcu
  · rw [hcand] at ht
    exact ht

theorem mem_assembleCohort {snap : Option Int} {I : List IndexRow} {R : List RepRow}
    {r : CohortRow} :
    r ∈ assembleCohort snap I R ↔
      ∃ ix ∈ I,
        ((∀ rp ∈ R, rp.customer_unique_id ≠ ix.customer_unique_id) ∧
          r = mkCohortRow snap ix none none none) ∨
        (∃ rp ∈ R, rp.customer_unique_id = ix.customer_unique_id ∧
          r = mkCohortRow snap ix (some rp.repurchase_order_id) rp.p1
            rp.repurchase_order_status) := by
  constructor
  · intro hrm
    obtain ⟨ix, hix, hr⟩ := List.mem_flatMap.mp hrm
    refine ⟨ix, hix, ?_⟩
    by_cases he :
        (R.filter fun rp => rp.customer_unique_id == ix.customer_unique_id).isEmpty
    · left
      rw [if_pos he] at hr
      refine ⟨?_, by simpa using hr⟩
      intro rp hrp hcu
      have : rp ∈ R.filter fun z => z.customer_unique_id == ix.customer_unique_id :=
        List.mem_filter.mpr ⟨hrp, by simpa using hcu⟩
      rw [List.isEmpty_iff] at he
      rw [he] at this
      exact absurd this (List.not_mem_nil rp)
    · right
      rw [if_neg he] at hr
      obtain ⟨rp, hrp, hrr⟩ := List.mem_map.mp hr
      obtain ⟨hrp', hcu⟩ := List.mem_filter.mp hrp
      exact ⟨rp, hrp', by simpa using hcu, hrr.symm⟩
  · rintro ⟨ix, hix, h | h⟩
    · obtain ⟨hnone, hr⟩ := h
      refine List.mem_flatMap.mpr ⟨ix, hix, ?_⟩
      have he : (R.filter fun rp => rp.customer_unique_id == ix.customer_unique_id) = [] := by
        rw [List.filter_eq_nil_iff]
        intro rp hrp
        simpa using hnone rp hrp
      rw [if_pos (by rw [he]; rfl)]
      simpa using hr
    · obtain ⟨rp, hrp, hcu, hr⟩ := h
      refine List.mem_flatMap.mpr ⟨ix, hix, ?_⟩
      have hne : ¬ (R.filter fun z => z.customer_unique_id == ix.customer_unique_id).isEmpty := by
        rw [List.isEmpty_iff]
        intro he
        have : rp ∈ R.filter fun z => z.customer_unique_id == ix.customer_unique_id :=
          List.mem_filter.mpr ⟨hrp, by simpa using hcu⟩
        rw [he] at this
        exact absurd this (List.not_mem_nil rp)
      rw [if_neg hne]
      exact List.mem_map.mpr
        ⟨rp, List.mem_filter.mpr ⟨hrp, by simpa using hcu⟩, hr.symm⟩

theorem validRow_iff {r : CohortRow} :
    validRow r = true ↔ ∃ d : ℚ, r.duration_days = some d ∧ 0 ≤ d := by
  cases h : r.duration_days <;> simp [validRow, h]

theorem int_max?_eq_some_iff {xs : List Int} {a : Int} :
    xs.max? = some a ↔ a ∈ xs ∧ ∀ b ∈ xs, b ≤ a := by
  haveI : Std.Antisymm ((· : Int) ≤ ·) := ⟨fun h h' => le_antisymm h h'⟩
  exact List.max?_eq_some_iff (fun a => le_refl a) (fun a b => max_choice a b)
    (fun a b c => max_le_iff)

theorem mkRat_day_eq_div (n : Int) : mkRat n 86400 = (n : ℚ) / 86400 := by
  rw [Rat.mkRat_eq_div]
  norm_num

theorem mkRat_day_nonneg_iff {n : Int} : 0 ≤ mkRat n 86400 ↔ 0 ≤ n := by
  rw [mkRat_day_eq_div]
  constructor
  · intro h
    rcases div_nonneg_iff.mp h with ⟨h₁, _⟩ | ⟨_, h₂⟩
    · exact_mod_cast h₁
    · norm_num at h₂
  · intro h
    exact div_nonneg (by exact_mod_cast h) (by norm_num)

theorem mkRat_day_pos_iff {n : Int} : 0 < mkRat n 86400 ↔ 0 < n := by
  rw [mkRat_day_eq_div]
  constructor
  · intro h
    rcases div_pos_iff.mp h with ⟨h₁, _⟩ | ⟨_, h₂⟩
    · exact_mod_cast h₁
    · norm_num at h₂
  · intro h
    exact div_pos (by exact_mod_cast h) (by norm_num)

theorem day_div_nonneg_iff {n : Int} : (0 : ℚ) ≤ (n : ℚ) / 86400 ↔ 0 ≤ n := by
  constructor
  · intro h
    rcases div_nonneg_iff.mp h with ⟨h₁, _⟩ | ⟨_, h₂⟩
    · exact_mod_cast h₁
    · norm_num at h₂
  · intro h
    exact div_nonneg (by exact_mod_cast h) (by norm_num)

theorem day_div_pos_iff {n : Int} : (0 : ℚ) < (n : ℚ) / 86400 ↔ 0 < n := by
  constructor
  · intro h
    rcases div_pos_iff.mp h with ⟨h₁, _⟩ | ⟨_, h₂⟩
    · exact_mod_cast h₁
    · norm_num at h₂
  · intro h
    exact div_pos (by exact_mod_cast h) (by norm_num)

theorem validStatus_iff {st : Option String} :
    validStatus st = true ↔ ∃ s, st = some s ∧ s ∉ excludedStatuses := by
  cases st <;> simp [validStatus]

/-- Every follow-up row carries a present purchase timestamp. -/
theorem firstRep_p1_isSome {merged : List MOrder} {I : List IndexRow} {r : RepRow}
    (hr : r ∈ firstRepOf merged I) : r.p1.isSome := by
  obtain ⟨c, hc, hrc, _⟩ := firstRep_spec hr
  obtain ⟨_, _, _, _, _, _, _, hp, _⟩ := mem_candidatesOf.mp hc
  rw [hrc]
  exact hp

/-- Field values of an assembled row with no follow-up match (censored). -/
theorem mkCohortRow_none_spec (snap : Option Int) (ix : IndexRow) {t : Int}
    (ht : ix.t0 = some t) :
    (mkCohortRow snap ix none none none).event = 0 ∧
    (mkCohortRow snap ix none none none).p1 = none ∧
    (mkCohortRow snap ix none none none).t0 = some t ∧
    (mkCohortRow snap ix none none none).customer_unique_id = ix.customer_unique_id ∧
    (mkCohortRow snap ix none none none).duration_days
      = snap.map fun s => ((s - t : Int) : ℚ) / 86400 := by
  refine ⟨rfl, rfl, ht, rfl, ?_⟩
  cases snap with
  | none => simp [mkCohortRow, durationOf, dayDiff, ht]
  | some s => simp [mkCohortRow, durationOf, dayDiff, ht, mkRat_day_eq_div]

/-- Field values of an assembled row with a follow-up match (event). -/
theorem mkCohortRow_some_spec (snap : Option Int) (ix : IndexRow)
    (roid rst : Option String) (p : Int) {t : Int} (ht : ix.t0 = some t) :
    (mkCohortRow snap ix roid (some p) rst).event = 1 ∧
    (mkCohortRow snap ix roid (some p) rst).p1 = some p ∧
    (mkCohortRow snap ix roid (some p) rst).t0 = some t ∧
    (mkCohortRow snap ix roid (some p) rst).customer_unique_id = ix.customer_unique_id ∧
    (mkCohortRow snap ix roid (some p) rst).duration_days
      = some (((p - t : Int) : ℚ) / 86400) := by
  refine ⟨rfl, rfl, ht, rfl, ?_⟩
  simp [mkCohortRow, durationOf, dayDiff, ht, mkRat_day_eq_div]

theorem mkCohortRow_cu (snap : Option Int) (ix : IndexRow)
    (roid : Option String) (p1 : Option Int) (rst : Option String) :
    (mkCohortRow snap ix roid p1 rst).customer_unique_id = ix.customer_unique_id := rfl

theorem assembleCohort_cu {snap : Option Int} {I : List IndexRow} {R : List RepRow}
    {r : CohortRow} (hr : r ∈ assembleCohort snap I R) :
    ∃ ix ∈ I, r.customer_unique_id = ix.customer_unique_id := by
  obtain ⟨ix, hix, h | h⟩ := mem_assembleCohort.mp hr
  · exact ⟨ix, hix, by rw [h.2]; rfl⟩
  · obtain ⟨rp, _, _, hb⟩ := h
    exact ⟨ix, hix, by rw [hb]; rfl⟩

theorem filter_key_subsingleton {α : Type} {g : α → String} {l : List α}
    (h : l.Pairwise fun x y => g x ≠ g y) (u : String) :
    (l.filter fun z => g z == u) = [] ∨
      ∃ a, (l.filter fun z => g z == u) = [a] := by
  induction l with
  | nil => exact Or.inl rfl
  | cons a t ih =>
    obtain ⟨ha, ht⟩ := List.pairwise_cons.mp h
    by_cases hga : g a = u
    · right
      refine ⟨a, ?_⟩
      rw [List.filter_cons, if_pos (by simpa using hga)]
      have hnil : (t.filter fun z => g z == u) = [] := by
        rw [List.filter_eq_nil_iff]
        intro y hy
        simp only [beq_iff_eq]
        intro hyu
        exact ha y hy (by rw [hyu, hga])
      rw [hnil]
    · rw [List.filter_cons, if_neg (by simpa using hga)]
      exact ih ht

theorem filter_key_eq_singleton {α : Type} {g : α → String} {u : String} :
    ∀ {l : List α}, (l.Pairwise fun x y => g x ≠ g y) →
      ∀ {x : α}, x ∈ l → g x = u → (l.filter fun z => g z == u) = [x]
  | [], _, x, hx, _ => absurd hx (List.not_mem_nil x)
  | a :: t, h, x, hx, hgx => by
    obtain ⟨ha, ht⟩ := List.pairwise_cons.mp h
    rcases List.mem_cons.mp hx with h₁ | h₁
    · subst h₁
      rw [List.filter_cons, if_pos (by simpa using hgx)]
      have hnil : (t.filter fun z => g z == u) = [] := by
        rw [List.filter_eq_nil_iff]
        intro y hy
        simp only [beq_iff_eq]
        intro hyu
        exact ha y hy (by rw [hyu, hgx])
      rw [hnil]
    · have hga : g a ≠ u := by
        intro hc
        exact ha x h₁ (by rw [hc, hgx])
      rw [List.filter_cons, if_neg (by simpa using hga)]
      exact filter_key_eq_singleton ht h₁ hgx

theorem assembleCohort_pairwise {snap : Option Int} {R : List RepRow}
    (hR : R.Pairwise fun a b => a.customer_unique_id ≠ b.customer_unique_id) :
    ∀ {I : List IndexRow},
      (I.Pairwise fun a b => a.customer_unique_id ≠ b.customer_unique_id) →
      (assembleCohort snap I R).Pairwise
        fun a b => a.customer_unique_id ≠ b.customer_unique_id
  | [], _ => List.Pairwise.nil
  | ix :: I', hI => by
    obtain ⟨hx, hI'⟩ := List.pairwise_cons.mp hI
    have hsplit : assembleCohort snap (ix :: I') R =
        (let ms := R.filter fun z => z.customer_unique_id == ix.customer_unique_id
          if ms.isEmpty then [mkCohortRow snap ix none none none]
          else ms.map fun rp =>
            mkCohortRow snap ix (some rp.repurchase_order_id) rp.p1
              rp.repurchase_order_status) ++ assembleCohort snap I' R := by
      rw [assembleCohort, assembleCohort, List.flatMap_cons]
    rw [hsplit, List.pairwise_append]
    have hgroup_cu : ∀ a ∈
        (let ms := R.filter fun z => z.customer_unique_id == ix.customer_unique_id
          if ms.isEmpty then [mkCohortRow snap ix none none none]
          else ms.map fun rp =>
            mkCohortRow snap ix (some rp.repurchase_order_id) rp.p1
              rp.repurchase_order_status),
        a.customer_unique_id = ix.customer_unique_id := by
      intro a ha
      simp only at ha
      by_cases he : (R.filter fun z =>
          z.customer_unique_id == ix.customer_unique_id).isEmpty
      · rw [if_pos he] at ha
        rcases List.mem_singleton.mp ha with h
        rw [h]
        rfl
      · rw [if_neg he] at ha
        obtain ⟨rp, _, hmk⟩ := List.mem_map.mp ha
        rw [← hmk]
        rfl
    refine ⟨?_, assembleCohort_pairwise hR hI', ?_⟩
    · by_cases he : (R.filter fun z =>
          z.customer_unique_id == ix.customer_unique_id).isEmpty
      · simp only [if_pos he]
        exact List.pairwise_singleton _ _
      · simp only [if_neg he]
        rcases filter_key_subsingleton hR ix.customer_unique_id with h | ⟨a, h⟩
        · rw [h]
          exact List.Pairwise.nil
        · rw [h]
          exact List.pairwise_singleton _ _
    · intro a ha b hb
      obtain ⟨ix', hix', hbcu⟩ := assembleCohort_cu hb
      rw [hgroup_cu a ha, hbcu]
      exact hx ix' hix'

/-! ### Witness fixtures: a small concrete dataset (the scenario of spec §8:
a delivered index order, a canceled order, a later shipped order). -/

def wOrderA : Order := ⟨"a", "c1", some "delivered", some 0, some 100⟩

def wOrderB : Order := ⟨"b", "c1", some "canceled", some 200, none⟩

def wOrderC : Order := ⟨"c", "c1", some "shipped", some 300, none⟩

def wOrders : List Order := [wOrderA, wOrderB, wOrderC]

def wCustomers : List Customer := [⟨"c1", "E"⟩]

/-! ### Claims -/

/-- C1: the snapshot timestamp equals the maximum non-missing purchase
timestamp of the complete, unfiltered input orders table: it is the value
the pipeline stores, it does not depend on the entity-mapping table, it is
unchanged by arbitrary modifications of the fields the later filters
inspect (status, delivery timestamp, identifiers), and it is characterised
as the maximum purchase timestamp over the original rows. -/
theorem snapshot_from_unfiltered_input (orders : List Order)
    (customers customers' : List Customer) (f : Order → Order)
    (hf : ∀ o, (f o).purchase_dt = o.purchase_dt) :
    (buildCohort orders customers).snapshot_ts = snapshotOf orders ∧
    (buildCohort (orders.map f) customers').snapshot_ts
      = (buildCohort orders customers).snapshot_ts ∧
    ∀ s : Int, snapshotOf orders = some s ↔
      ((∃ o ∈ orders, o.purchase_dt = some s) ∧
        ∀ o ∈ orders, ∀ v : Int, o.purchase_dt = some v → v ≤ s) := by
  refine ⟨rfl, ?_, ?_⟩
  · show snapshotOf (orders.map f) = snapshotOf orders
    unfold snapshotOf
    rw [List.filterMap_map]
    congr 1
    induction orders with
    | nil => rfl
    | cons o t ih => simp [List.filterMap_cons, Function.comp, hf o, ih]
  · intro s
    rw [snapshotOf, int_max?_eq_some_iff]
    constructor
    · rintro ⟨h₁, h₂⟩
      obtain ⟨o, ho, hos⟩ := List.mem_filterMap.mp h₁
      refine ⟨⟨o, ho, hos⟩, ?_⟩
      intro o' ho' v hv
      exact h₂ v (List.mem_filterMap.mpr ⟨o', ho', hv⟩)
    · rintro ⟨⟨o, ho, hos⟩, h₂⟩
      refine ⟨List.mem_filterMap.mpr ⟨o, ho, hos⟩, ?_⟩
      intro b hb
      obtain ⟨o', ho', hob⟩ := List.mem_filterMap.mp hb
      exact h₂ o' ho' b hob

/-- Witness for C1 at the concrete dataset, with the identity field
modification. -/
theorem snapshot_from_unfiltered_input_witness :
    (buildCohort wOrders []).snapshot_ts = snapshotOf wOrders ∧
    (buildCohort (wOrders.map id) wCustomers).snapshot_ts
      = (buildCohort wOrders []).snapshot_ts ∧
    ∀ s : Int, snapshotOf wOrders = some s ↔
      ((∃ o ∈ wOrders, o.purchase_dt = some s) ∧
        ∀ o ∈ wOrders, ∀ v : Int, o.purchase_dt = some v → v ≤ s) :=
  snapshot_from_unfiltered_input wOrders [] wCustomers id fun _ => rfl

/-- C9: when a required input file is absent the run fails, with an error
naming every missing path and the resolution options, and the error is
computed without touching the data (it is the same whatever tables would
have been read); when both files exist the error branch is unreachable and
the pipeline runs. -/
theorem missing_input_fails_early (oe ce : Bool) (dataDir : String)
    (orders orders' : List Order) (customers customers' : List Customer) :
    (¬ (oe = true ∧ ce = true) → ∃ e : MissingInputError,
      runMain oe ce dataDir orders customers = Except.error e ∧
      (oe = false → ordersPath dataDir ∈ e.missing) ∧
      (ce = false → customersPath dataDir ∈ e.missing) ∧
      (∀ p ∈ e.missing, (oe = false ∧ p = ordersPath dataDir) ∨
        (ce = false ∧ p = customersPath dataDir)) ∧
      e.solution =
        "Provide --data-dir, set $OLIST_RAW_DIR, or place files under repo/raw_data/" ∧
      runMain oe ce dataDir orders' customers' = Except.error e) ∧
    (oe = true → ce = true →
      runMain oe ce dataDir orders customers = Except.ok (buildCohort orders customers)) := by
  constructor
  · intro hne
    have hb : (oe && ce) = false := by
      cases oe <;> cases ce <;> simp_all
    refine ⟨⟨(if oe then [] else [ordersPath dataDir]) ++
        (if ce then [] else [customersPath dataDir]),
        "Provide --data-dir, set $OLIST_RAW_DIR, or place files under repo/raw_data/"⟩,
      ?_, ?_, ?_, ?_, rfl, ?_⟩
    · simp only [runMain, hb]
      rfl
    · intro ho
      subst ho
      simp
    · intro hc
      subst hc
      cases oe <;> simp
    · intro p hp
      cases oe <;> cases ce <;> simp_all
    · simp only [runMain, hb]
      rfl
  · intro ho hc
    subst ho hc
    rfl

/-- Witness for C9: with the orders file missing, the run errors and names
the orders path; with both files present it succeeds. -/
theorem missing_input_fails_early_witness :
    (¬ ((false : Bool) = true ∧ (true : Bool) = true) → ∃ e : MissingInputError,
      runMain false true "raw_data" wOrders wCustomers = Except.error e ∧
      ((false : Bool) = false → ordersPath "raw_data" ∈ e.missing) ∧
      ((true : Bool) = false → customersPath "raw_data" ∈ e.missing) ∧
      (∀ p ∈ e.missing, ((false : Bool) = false ∧ p = ordersPath "raw_data") ∨
        ((true : Bool) = false ∧ p = customersPath "raw_data")) ∧
      e.solution =
        "Provide --data-dir, set $OLIST_RAW_DIR, or place files under repo/raw_data/" ∧
      runMain false true "raw_data" [] [] = Except.error e) ∧
    ((false : Bool) = true → (true : Bool) = true →
      runMain false true "raw_data" wOrders wCustomers
        = Except.ok (buildCohort wOrders wCustomers)) :=
  missing_input_fails_early false true "raw_data" wOrders [] wCustomers []

/-- C8: the validity filter drops exactly the assembled cohort rows whose
duration is missing or negative — the final cohort is the filtered
assembled table (a sublist: rows are removed, never modified), membership
is exactly "assembled and duration present and non-negative", and the run
still succeeds and produces output. -/
theorem validity_filter_drops_exactly (orders : List Order)
    (customers : List Customer) (dataDir : String) :
    (buildCohort orders customers).cohort = cohortOf orders customers ∧
    cohortOf orders customers = (cohortPreOf orders customers).filter validRow ∧
    (∀ r : CohortRow, r ∈ cohortOf orders customers ↔
      r ∈ cohortPreOf orders customers ∧ ∃ d : ℚ, r.duration_days = some d ∧ 0 ≤ d) ∧
    List.Sublist (cohortOf orders customers) (cohortPreOf orders customers) ∧
    runMain true true dataDir orders customers
      = Except.ok (buildCohort orders customers) := by
  refine ⟨rfl, rfl, ?_, List.filter_sublist _, rfl⟩
  intro r
  rw [cohortOf, List.mem_filter, validRow_iff]

/-- C5: on every assembled cohort row (before the validity filter), the
event indicator is 1 exactly when the follow-up purchase timestamp is
present (0 otherwise), and the duration is the elapsed seconds divided by
86400: `(p1 - t0)/86400` days when event = 1 and `(snapshot - t0)/86400`
days when event = 0 (missing when the snapshot is missing). -/
theorem assembly_event_and_duration (orders : List Order) (customers : List Customer)
    {r : CohortRow} (hr : r ∈ cohortPreOf orders customers) :
    (r.event = 1 ↔ r.p1.isSome) ∧ (r.event = 0 ↔ r.p1 = none) ∧
    (r.event = 1 → ∃ p t : Int, r.p1 = some p ∧ r.t0 = some t ∧
      r.duration_days = some (((p - t : Int) : ℚ) / 86400)) ∧
    (r.event = 0 → ∃ t : Int, r.t0 = some t ∧
      r.duration_days = (snapshotOf orders).map fun s => ((s - t : Int) : ℚ) / 86400) := by
  have hr' : r ∈ assembleCohort (snapshotOf orders)
      (indexOrdersOf (mergeCustomers orders customers))
      (firstRepOf (mergeCustomers orders customers)
        (indexOrdersOf (mergeCustomers orders customers))) := hr
  obtain ⟨ix, hix, hcase⟩ := mem_assembleCohort.mp hr'
  obtain ⟨t, ht⟩ := Option.isSome_iff_exists.mp (indexOrders_t0_p0_isSome hix).1
  rcases hcase with ⟨_, hr0⟩ | ⟨rp, hrp, _, hr1⟩
  · obtain ⟨he, hp1, ht0, _, hdur⟩ := mkCohortRow_none_spec (snapshotOf orders) ix ht
    rw [hr0]
    rw [hr0] at *
    refine ⟨?_, ?_, ?_, ?_⟩
    · rw [he, hp1]
      simp
    · rw [he, hp1]
      simp
    · intro h1
      rw [he] at h1
      exact absurd h1 (by norm_num)
    · intro _
      exact ⟨t, ht0, hdur⟩
  · obtain ⟨p, hp⟩ := Option.isSome_iff_exists.mp (firstRep_p1_isSome hrp)
    rw [hp] at hr1
    obtain ⟨he, hp1, ht0, _, hdur⟩ :=
      mkCohortRow_some_spec (snapshotOf orders) ix (some rp.repurchase_order_id)
        rp.repurchase_order_status p ht
    rw [hr1]
    refine ⟨?_, ?_, ?_, ?_⟩
    · rw [he, hp1]
      simp
    · rw [he, hp1]
      simp
    · intro _
      exact ⟨p, t, hp1, ht0, hdur⟩
    · intro h0
      rw [he] at h0
      exact absurd h0 (by norm_num)

/-- Witness for C5: the fixture cohort has one assembled row; it satisfies
the event/duration characterisation. -/
theorem assembly_event_and_duration_witness :
    ∃ r ∈ cohortPreOf wOrders wCustomers,
      ((r.event = 1 ↔ r.p1.isSome) ∧ (r.event = 0 ↔ r.p1 = none) ∧
      (r.event = 1 → ∃ p t : Int, r.p1 = some p ∧ r.t0 = some t ∧
        r.duration_days = some (((p - t : Int) : ℚ) / 86400)) ∧
      (r.event = 0 → ∃ t : Int, r.t0 = some t ∧
        r.duration_days = (snapshotOf wOrders).map fun s => ((s - t : Int) : ℚ) / 86400)) := by
  have hmem : (mkCohortRow (some 300) ⟨"E", "a", some 0, some 100⟩ (some "c")
      (some 300) (some "shipped")) ∈ cohortPreOf wOrders wCustomers := by decide
  exact ⟨_, hmem, assembly_event_and_duration wOrders wCustomers hmem⟩

/-- C2: on every retained cohort row: when event = 1 the follow-up
purchase `p1` is strictly after `t0`; when event = 0 the snapshot is at or
after `t0`; in both cases the duration is present and non-negative. -/
theorem cohort_no_leakage (orders : List Order) (customers : List Customer)
    {r : CohortRow} (hr : r ∈ cohortOf orders customers) :
    (r.event = 1 → ∃ p t : Int, r.p1 = some p ∧ r.t0 = some t ∧ t < p) ∧
    (r.event = 0 → ∃ s t : Int, snapshotOf orders = some s ∧ r.t0 = some t ∧ t ≤ s) ∧
    ∃ d : ℚ, r.duration_days = some d ∧ 0 ≤ d := by
  have hr0 : r ∈ (cohortPreOf orders customers).filter validRow := hr
  obtain ⟨hpre, hvalid⟩ := List.mem_filter.mp hr0
  obtain ⟨d, hd, hd0⟩ := validRow_iff.mp hvalid
  have hr' : r ∈ assembleCohort (snapshotOf orders)
      (indexOrdersOf (mergeCustomers orders customers))
      (firstRepOf (mergeCustomers orders customers)
        (indexOrdersOf (mergeCustomers orders customers))) := hpre
  obtain ⟨ix, hix, hcase⟩ := mem_assembleCohort.mp hr'
  obtain ⟨t, ht⟩ := Option.isSome_iff_exists.mp (indexOrders_t0_p0_isSome hix).1
  rcases hcase with ⟨_, hreq⟩ | ⟨rp, hrp, hcu, hreq⟩
  · obtain ⟨he, _, ht0, _, hdur⟩ := mkCohortRow_none_spec (snapshotOf orders) ix ht
    refine ⟨?_, ?_, d, hd, hd0⟩
    · intro h1
      rw [hreq, he] at h1
      exact absurd h1 (by norm_num)
    · intro _
      rw [hreq] at hd
      rw [hdur] at hd
      cases hsnap : snapshotOf orders with
      | none =>
        rw [hsnap] at hd
        exact absurd hd (by simp)
      | some s =>
        rw [hsnap] at hd
        have hd' : ((s - t : Int) : ℚ) / 86400 = d := Option.some_inj.mp hd
        refine ⟨s, t, rfl, by rw [hreq]; exact ht0, ?_⟩
        have hnn : (0 : ℚ) ≤ ((s - t : Int) : ℚ) / 86400 := by
          rw [hd']
          exact hd0
        have := day_div_nonneg_iff.mp hnn
        omega
  · obtain ⟨p, hp⟩ := Option.isSome_iff_exists.mp (firstRep_p1_isSome hrp)
    rw [hp] at hreq
    obtain ⟨ix', hix', hcu', p', t', hp', ht', hlt⟩ := firstRep_p1_gt_t0 hrp
    have hixeq : ix' = ix :=
      eq_of_pairwise_key_ne (indexOrders_keys_distinct _) hix' hix (by rw [hcu', hcu])
    rw [hixeq] at ht'
    rw [ht] at ht'
    obtain ⟨he, hp1, ht0, _, _⟩ :=
      mkCohortRow_some_spec (snapshotOf orders) ix (some rp.repurchase_order_id)
        rp.repurchase_order_status p ht
    refine ⟨?_, ?_, d, hd, hd0⟩
    · intro _
      refine ⟨p, t, by rw [hreq]; exact hp1, by rw [hreq]; exact ht0, ?_⟩
      have hpp' : p = p' := by
        rw [hp] at hp'
        exact Option.some_inj.mp hp'
      have htt' : t = t' := Option.some_inj.mp ht'
      rw [hpp', htt']
      exact hlt
    · intro h0
      rw [hreq, he] at h0
      exact absurd h0 (by norm_num)

/-- Witness for C2 at the fixture dataset. -/
theorem cohort_no_leakage_witness :
    ∃ r ∈ cohortOf wOrders wCustomers,
      ((r.event = 1 → ∃ p t : Int, r.p1 = some p ∧ r.t0 = some t ∧ t < p) ∧
      (r.event = 0 → ∃ s t : Int, snapshotOf wOrders = some s ∧ r.t0 = some t ∧ t ≤ s) ∧
      ∃ d : ℚ, r.duration_days = some d ∧ 0 ≤ d) := by
  have hmem : (mkCohortRow (some 300) ⟨"E", "a", some 0, some 100⟩ (some "c")
      (some 300) (some "shipped")) ∈ cohortOf wOrders wCustomers := by decide
  exact ⟨_, hmem, cohort_no_leakage wOrders wCustomers hmem⟩

/-- C10: on every retained cohort row with event = 1 the duration is
strictly positive, because the temporal filter enforces `p1 > t0`. -/
theorem event_row_duration_positive (orders : List Order) (customers : List Customer)
    {r : CohortRow} (hr : r ∈ cohortOf orders customers) (he : r.event = 1) :
    ∃ d : ℚ, r.duration_days = some d ∧ 0 < d := by
  have hr0 : r ∈ (cohortPreOf orders customers).filter validRow := hr
  obtain ⟨hpre, _⟩ := List.mem_filter.mp hr0
  obtain ⟨hp_t, _, _⟩ := cohort_no_leakage orders customers hr
  obtain ⟨p, t, hp, ht, hlt⟩ := hp_t he
  obtain ⟨_, _, hdur, _⟩ := assembly_event_and_duration orders customers hpre
  obtain ⟨p', t', hp', ht', hd⟩ := hdur he
  have hpp : p = p' := by
    rw [hp] at hp'
    exact Option.some_inj.mp hp'
  have htt : t = t' := by
    rw [ht] at ht'
    exact Option.some_inj.mp ht'
  refine ⟨((p' - t' : Int) : ℚ) / 86400, hd, ?_⟩
  rw [day_div_pos_iff]
  omega

/-- Witness for C10 at the fixture dataset. -/
theorem event_row_duration_positive_witness :
    ∃ r ∈ cohortOf wOrders wCustomers, r.event = 1 ∧
      ∃ d : ℚ, r.duration_days = some d ∧ 0 < d := by
  have hmem : (mkCohortRow (some 300) ⟨"E", "a", some 0, some 100⟩ (some "c")
      (some 300) (some "shipped")) ∈ cohortOf wOrders wCustomers := by decide
  exact ⟨_, hmem, rfl, event_row_duration_positive wOrders wCustomers hmem rfl⟩

/-- C7: the final cohort table has at most one row per distinct entity
identifier: rows carry pairwise distinct `customer_unique_id`s, so two
cohort rows with the same entity identifier are the same row. -/
theorem cohort_one_row_per_entity (orders : List Order) (customers : List Customer) :
    ((cohortOf orders customers).Pairwise
      fun a b => a.customer_unique_id ≠ b.customer_unique_id) ∧
    ∀ a ∈ cohortOf orders customers, ∀ b ∈ cohortOf orders customers,
      a.customer_unique_id = b.customer_unique_id → a = b := by
  have hpre : (cohortPreOf orders customers).Pairwise
      fun a b => a.customer_unique_id ≠ b.customer_unique_id :=
    assembleCohort_pairwise (firstRep_keys_distinct _ _) (indexOrders_keys_distinct _)
  have hfil : (cohortOf orders customers).Pairwise
      fun a b => a.customer_unique_id ≠ b.customer_unique_id :=
    hpre.sublist (List.filter_sublist _)
  exact ⟨hfil, fun a ha b hb => eq_of_pairwise_key_ne hfil ha hb⟩

theorem optKey_some_le {x y : Int} : optKey (some x) ≤ optKey (some y) ↔ x ≤ y := by
  simp [optKey, Prod.Lex.le_iff]

theorem optKey_some_lt {x y : Int} : optKey (some x) < optKey (some y) ↔ x < y := by
  simp [optKey, Prod.Lex.lt_iff]

theorem optKey_some_eq {x y : Int} : optKey (some x) = optKey (some y) ↔ x = y := by
  simp [optKey, toLex_inj, Prod.ext_iff]

/-- Unfolding the index sort key for two rows of the same entity:
delivery first, purchase as tie-break. -/
theorem idxKey_le_same_cu {a b : MOrder}
    (hcu : a.customer_unique_id = b.customer_unique_id) (h : idxKey a ≤ idxKey b) :
    optKey a.delivery_dt < optKey b.delivery_dt ∨
      (optKey a.delivery_dt = optKey b.delivery_dt ∧
        optKey a.purchase_dt ≤ optKey b.purchase_dt) := by
  rcases (Prod.Lex.le_iff _ _).mp h with h' | ⟨_, h2⟩
  · rw [hcu] at h'
    exact absurd h' (lt_irrefl _)
  · rcases (Prod.Lex.le_iff _ _).mp h2 with h3 | ⟨h4, h5⟩
    · exact Or.inl h3
    · exact Or.inr ⟨h4, h5⟩

/-- Unfolding the follow-up sort key for two rows of the same entity:
ordered by purchase timestamp. -/
theorem repKey_le_same_cu {a b : Candidate}
    (hcu : a.customer_unique_id = b.customer_unique_id) (h : repKey a ≤ repKey b) :
    optKey a.purchase_dt ≤ optKey b.purchase_dt := by
  rcases (Prod.Lex.le_iff _ _).mp h with h' | ⟨_, h2⟩
  · rw [hcu] at h'
    exact absurd h' (lt_irrefl _)
  · exact h2

/-- C3: for every entity with at least one delivered transaction carrying
both timestamps (after the entity-mapping join), the index table has
exactly one row for it — a qualifying transaction with the earliest
delivery timestamp, ties broken by earliest purchase timestamp; entities
with no qualifying transaction are absent from the index table and from
the cohort. -/
theorem index_event_selection (orders : List Order) (customers : List Customer)
    (u : String) :
    ((∃ q ∈ (mergeCustomers orders customers).filter isDelivered,
        q.customer_unique_id = u) →
      ∃ q, q ∈ (mergeCustomers orders customers).filter isDelivered ∧
        q.customer_unique_id = u ∧
        ((indexOrdersOf (mergeCustomers orders customers)).filter
          fun r => r.customer_unique_id == u) = [mkIndexRow q] ∧
        ∀ q' ∈ (mergeCustomers orders customers).filter isDelivered,
          q'.customer_unique_id = u →
          ∃ d p d' p' : Int, q.delivery_dt = some d ∧ q.purchase_dt = some p ∧
            q'.delivery_dt = some d' ∧ q'.purchase_dt = some p' ∧
            (d < d' ∨ (d = d' ∧ p ≤ p'))) ∧
    ((¬ ∃ q ∈ (mergeCustomers orders customers).filter isDelivered,
        q.customer_unique_id = u) →
      (∀ r ∈ indexOrdersOf (mergeCustomers orders customers),
        r.customer_unique_id ≠ u) ∧
      ∀ r ∈ cohortOf orders customers, r.customer_unique_id ≠ u) := by
  constructor
  · rintro ⟨q0, hq0, hq0u⟩
    obtain ⟨hq0m, hq0d⟩ := List.mem_filter.mp hq0
    obtain ⟨r, hr, hrcu⟩ := indexOrders_covers hq0m hq0d
    obtain ⟨o, hom, hod, hro, hmin⟩ := indexOrders_spec hr
    have hrocu : r.customer_unique_id = o.customer_unique_id := by
      rw [hro]
      rfl
    have hocu : o.customer_unique_id = u := by
      rw [← hrocu, hrcu, hq0u]
    refine ⟨o, List.mem_filter.mpr ⟨hom, hod⟩, hocu, ?_, ?_⟩
    · have hru : r.customer_unique_id = u := by rw [hrcu, hq0u]
      rw [hro] at hr hru
      exact filter_key_eq_singleton (indexOrders_keys_distinct _) hr hru
    · intro q' hq' hq'u
      obtain ⟨hq'm, hq'd⟩ := List.mem_filter.mp hq'
      have hle := hmin q' hq'm hq'd (by rw [hq'u, hocu])
      obtain ⟨_, hdel, hpur⟩ := isDelivered_iff.mp hod
      obtain ⟨d, hd⟩ := Option.isSome_iff_exists.mp hdel
      obtain ⟨p, hp⟩ := Option.isSome_iff_exists.mp hpur
      obtain ⟨_, hdel', hpur'⟩ := isDelivered_iff.mp hq'd
      obtain ⟨d', hd'⟩ := Option.isSome_iff_exists.mp hdel'
      obtain ⟨p', hp'⟩ := Option.isSome_iff_exists.mp hpur'
      refine ⟨d, p, d', p', hd, hp, hd', hp', ?_⟩
      have hcueq : o.customer_unique_id = q'.customer_unique_id := by
        rw [hocu, hq'u]
      rcases idxKey_le_same_cu hcueq hle with h | ⟨h1, h2⟩
      · left
        rw [hd, hd'] at h
        exact optKey_some_lt.mp h
      · right
        rw [hd, hd'] at h1
        rw [hp, hp'] at h2
        exact ⟨optKey_some_eq.mp h1, optKey_some_le.mp h2⟩
  · intro hne
    constructor
    · intro r hr hru
      obtain ⟨o, hom, hod, hro, _⟩ := indexOrders_spec hr
      refine hne ⟨o, List.mem_filter.mpr ⟨hom, hod⟩, ?_⟩
      have : r.customer_unique_id = o.customer_unique_id := by
        rw [hro]
        rfl
      rw [← this, hru]
    · intro r hr hru
      have hr0 : r ∈ (cohortPreOf orders customers).filter validRow := hr
      obtain ⟨hpre, _⟩ := List.mem_filter.mp hr0
      have hr' : r ∈ assembleCohort (snapshotOf orders)
          (indexOrdersOf (mergeCustomers orders customers))
          (firstRepOf (mergeCustomers orders customers)
            (indexOrdersOf (mergeCustomers orders customers))) := hpre
      obtain ⟨ix, hix, hcu⟩ := assembleCohort_cu hr'
      obtain ⟨o, hom, hod, hro, _⟩ := indexOrders_spec hix
      refine hne ⟨o, List.mem_filter.mpr ⟨hom, hod⟩, ?_⟩
      have : ix.customer_unique_id = o.customer_unique_id := by
        rw [hro]
        rfl
      rw [← this, ← hcu, hru]

/-- Witness for C3: entity "E" of the fixture has a delivered transaction;
the index table contains exactly its minimal delivered row. -/
theorem index_event_selection_witness :
    ∃ q, q ∈ (mergeCustomers wOrders wCustomers).filter isDelivered ∧
      q.customer_unique_id = "E" ∧
      ((indexOrdersOf (mergeCustomers wOrders wCustomers)).filter
        fun r => r.customer_unique_id == "E") = [mkIndexRow q] ∧
      ∀ q' ∈ (mergeCustomers wOrders wCustomers).filter isDelivered,
        q'.customer_unique_id = "E" →
        ∃ d p d' p' : Int, q.delivery_dt = some d ∧ q.purchase_dt = some p ∧
          q'.delivery_dt = some d' ∧ q'.purchase_dt = some p' ∧
          (d < d' ∨ (d = d' ∧ p ≤ p')) :=
  (index_event_selection wOrders wCustomers "E").1 (by decide)

/-- For an index row `ix`, the candidates of the entity of `ix` are exactly the
merged rows with valid status and purchase strictly after `ix.t0` (the
inner join can only have matched `ix`, the unique index row of that
entity). -/
theorem candidate_iff_qualifies {merged : List MOrder} {I : List IndexRow}
    (hIpw : I.Pairwise fun a b => a.customer_unique_id ≠ b.customer_unique_id)
    {ix : IndexRow} (hix : ix ∈ I) {c : Candidate}
    (hcu : c.customer_unique_id = ix.customer_unique_id) :
    c ∈ candidatesOf merged I ↔
      ∃ o ∈ merged, o.customer_unique_id = ix.customer_unique_id ∧
        validStatus o.order_status ∧ dtGT o.purchase_dt ix.t0 ∧
        c = mkCandidate o ix := by
  constructor
  · intro hc
    obtain ⟨o, ho, ix₂, hix₂, hval, hixcu, hceq, hpsome, hgt⟩ := mem_candidatesOf.mp hc
    have hccu : c.customer_unique_id = o.customer_unique_id := by
      rw [hceq]
      rfl
    have hocu : o.customer_unique_id = ix.customer_unique_id := by
      rw [← hccu, hcu]
    have hix₂eq : ix₂ = ix :=
      eq_of_pairwise_key_ne hIpw hix₂ hix (by rw [hixcu, hocu])
    rw [hix₂eq] at hceq
    refine ⟨o, ho, hocu, hval, ?_, hceq⟩
    have hcp : c.purchase_dt = o.purchase_dt := by
      rw [hceq]
      rfl
    have hct : c.t0 = ix.t0 := by
      rw [hceq]
      rfl
    rw [← hcp, ← hct]
    exact hgt
  · rintro ⟨o, ho, hocu, hval, hgt, hceq⟩
    obtain ⟨p, t, hp, _, _⟩ := dtGT_iff.mp hgt
    refine mem_candidatesOf.mpr ⟨o, ho, ix, hix, hval, hocu.symm, hceq, ?_, ?_⟩
    · rw [hceq]
      show o.purchase_dt.isSome
      rw [hp]
      rfl
    · rw [hceq]
      exact hgt

/-- C4: for every indexed entity, when a qualifying follow-up transaction
exists (status present and outside the excluded set, purchase strictly
after the entity's `t0`), the follow-up table contains exactly one row for
the entity — a qualifying transaction with the earliest purchase
timestamp, whose status is never in the excluded set; entities with no
qualifying transaction are absent from the follow-up table. -/
theorem followup_event_selection (orders : List Order) (customers : List Customer)
    {ix : IndexRow}
    (hix : ix ∈ indexOrdersOf (mergeCustomers orders customers)) :
    ((∃ o ∈ mergeCustomers orders customers,
        o.customer_unique_id = ix.customer_unique_id ∧
        validStatus o.order_status ∧ dtGT o.purchase_dt ix.t0) →
      ∃ o, o ∈ mergeCustomers orders customers ∧
        o.customer_unique_id = ix.customer_unique_id ∧
        validStatus o.order_status ∧ dtGT o.purchase_dt ix.t0 ∧
        (∃ s, o.order_status = some s ∧ s ∉ excludedStatuses) ∧
        ((firstRepOf (mergeCustomers orders customers)
            (indexOrdersOf (mergeCustomers orders customers))).filter
          fun r => r.customer_unique_id == ix.customer_unique_id)
            = [mkRepRow (mkCandidate o ix)] ∧
        ∀ o' ∈ mergeCustomers orders customers,
          o'.customer_unique_id = ix.customer_unique_id →
          validStatus o'.order_status → dtGT o'.purchase_dt ix.t0 →
          ∃ p p' : Int, o.purchase_dt = some p ∧ o'.purchase_dt = some p' ∧ p ≤ p') ∧
    ((¬ ∃ o ∈ mergeCustomers orders customers,
        o.customer_unique_id = ix.customer_unique_id ∧
        validStatus o.order_status ∧ dtGT o.purchase_dt ix.t0) →
      ∀ r ∈ firstRepOf (mergeCustomers orders customers)
          (indexOrdersOf (mergeCustomers orders customers)),
        r.customer_unique_id ≠ ix.customer_unique_id) := by
  have hIpw := indexOrders_keys_distinct (mergeCustomers orders customers)
  constructor
  · rintro ⟨o₀, ho₀, ho₀cu, ho₀v, ho₀gt⟩
    have hc₀ : mkCandidate o₀ ix ∈
        candidatesOf (mergeCustomers orders customers)
          (indexOrdersOf (mergeCustomers orders customers)) :=
      (candidate_iff_qualifies hIpw hix (show (mkCandidate o₀ ix).customer_unique_id
          = ix.customer_unique_id from ho₀cu)).mpr
        ⟨o₀, ho₀, ho₀cu, ho₀v, ho₀gt, rfl⟩
    obtain ⟨r, hrmem, hrcu⟩ := firstRep_covers hc₀
    obtain ⟨c, hc, hrc, hmin⟩ := firstRep_spec hrmem
    have hrcu' : r.customer_unique_id = c.customer_unique_id := by
      rw [hrc]
      rfl
    have hccu : c.customer_unique_id = ix.customer_unique_id := by
      rw [← hrcu', hrcu]
      exact ho₀cu
    obtain ⟨o, ho, hocu, hov, hogt, hceq⟩ :=
      (candidate_iff_qualifies hIpw hix hccu).mp hc
    refine ⟨o, ho, hocu, hov, hogt, validStatus_iff.mp hov, ?_, ?_⟩
    · have hrix : r.customer_unique_id = ix.customer_unique_id := by
        rw [hrcu]
        exact ho₀cu
      have hsing := filter_key_eq_singleton
        (firstRep_keys_distinct (mergeCustomers orders customers)
          (indexOrdersOf (mergeCustomers orders customers))) hrmem hrix
      rw [hsing, hrc, hceq]
    · intro o' ho' ho'cu ho'v ho'gt
      have hc' : mkCandidate o' ix ∈
          candidatesOf (mergeCustomers orders customers)
            (indexOrdersOf (mergeCustomers orders customers)) :=
        (candidate_iff_qualifies hIpw hix (show (mkCandidate o' ix).customer_unique_id
            = ix.customer_unique_id from ho'cu)).mpr
          ⟨o', ho', ho'cu, ho'v, ho'gt, rfl⟩
      have hle := hmin (mkCandidate o' ix) hc'
        (show (mkCandidate o' ix).customer_unique_id = c.customer_unique_id by
          rw [hccu]
          exact ho'cu)
      have hkey := repKey_le_same_cu
        (show c.customer_unique_id = (mkCandidate o' ix).customer_unique_id by
          rw [hccu]
          exact ho'cu.symm) hle
      obtain ⟨p, t, hp, _, _⟩ := dtGT_iff.mp hogt
      obtain ⟨p', t', hp', _, _⟩ := dtGT_iff.mp ho'gt
      refine ⟨p, p', hp, hp', ?_⟩
      have hcp : c.purchase_dt = o.purchase_dt := by
        rw [hceq]
        rfl
      have hcp' : (mkCandidate o' ix).purchase_dt = o'.purchase_dt := rfl
      rw [hcp, hcp', hp, hp'] at hkey
      exact optKey_some_le.mp hkey
  · intro hne r hr hrcu
    obtain ⟨c, hc, hrc, _⟩ := firstRep_spec hr
    have hccu : c.customer_unique_id = ix.customer_unique_id := by
      have : r.customer_unique_id = c.customer_unique_id := by
        rw [hrc]
        rfl
      rw [← this, hrcu]
    obtain ⟨o, ho, hocu, hov, hogt, _⟩ :=
      (candidate_iff_qualifies hIpw hix hccu).mp hc
    exact hne ⟨o, ho, hocu, hov, hogt⟩

/-- Witness for C4: in the fixture, the index row of entity "E" has a
qualifying follow-up (the shipped order; the canceled one is excluded). -/
theorem followup_event_selection_witness :
    ∃ o, o ∈ mergeCustomers wOrders wCustomers ∧
      o.customer_unique_id = (⟨"E", "a", some 0, some 100⟩ : IndexRow).customer_unique_id ∧
      validStatus o.order_status ∧
      dtGT o.purchase_dt (⟨"E", "a", some 0, some 100⟩ : IndexRow).t0 ∧
      (∃ s, o.order_status = some s ∧ s ∉ excludedStatuses) ∧
      ((firstRepOf (mergeCustomers wOrders wCustomers)
          (indexOrdersOf (mergeCustomers wOrders wCustomers))).filter
        fun r => r.customer_unique_id ==
          (⟨"E", "a", some 0, some 100⟩ : IndexRow).customer_unique_id)
          = [mkRepRow (mkCandidate o ⟨"E", "a", some 0, some 100⟩)] ∧
      ∀ o' ∈ mergeCustomers wOrders wCustomers,
        o'.customer_unique_id = (⟨"E", "a", some 0, some 100⟩ : IndexRow).customer_unique_id →
        validStatus o'.order_status →
        dtGT o'.purchase_dt (⟨"E", "a", some 0, some 100⟩ : IndexRow).t0 →
        ∃ p p' : Int, o.purchase_dt = some p ∧ o'.purchase_dt = some p' ∧ p ≤ p' :=
  (followup_event_selection wOrders wCustomers (by decide)).1 (by decide)

/-! ### Determinism and row-order dependence -/

/-- Two delivered orders of the same customer with identical purchase and
delivery timestamps but different order identifiers: an exact tie on every
sort key. -/
def tieOrderA : Order := ⟨"a", "c1", some "delivered", some 0, some 0⟩

def tieOrderB : Order := ⟨"b", "c1", some "delivered", some 0, some 0⟩

/-- C6 counterexample: the pipeline output is not invariant under
permutation of the input rows. With two delivered orders of one customer
tying exactly on delivery and purchase timestamps, swapping the two input
rows changes which `order_id` the stable sort puts first, hence which
transaction becomes the index event. -/
theorem order_dependence_counterexample :
    List.Perm [tieOrderA, tieOrderB] [tieOrderB, tieOrderA] ∧
    (buildCohort [tieOrderA, tieOrderB] [⟨"c1", "E"⟩]).cohort
      ≠ (buildCohort [tieOrderB, tieOrderA] [⟨"c1", "E"⟩]).cohort ∧
    buildCohort [tieOrderA, tieOrderB] [⟨"c1", "E"⟩]
      ≠ buildCohort [tieOrderB, tieOrderA] [⟨"c1", "E"⟩] := by
  refine ⟨by decide, by decide, by decide⟩

theorem max?_perm {l l' : List Int} (h : List.Perm l l') : l.max? = l'.max? := by
  cases hm : l.max? with
  | none =>
    rw [List.max?_eq_none_iff] at hm
    subst hm
    have hl' : l' = [] := (h.nil_eq).symm
    rw [hl']
    rfl
  | some a =>
    obtain ⟨h₁, h₂⟩ := int_max?_eq_some_iff.mp hm
    exact (int_max?_eq_some_iff.mpr ⟨h.subset h₁, fun b hb => h₂ b (h.symm.subset hb)⟩).symm

theorem snapshotOf_perm {orders orders' : List Order}
    (h : List.Perm orders orders') : snapshotOf orders = snapshotOf orders' :=
  max?_perm (h.filterMap _)

theorem mergeCustomers_perm {orders orders' : List Order}
    {customers customers' : List Customer}
    (ho : List.Perm orders orders') (hc : List.Perm customers customers') :
    List.Perm (mergeCustomers orders customers)
      (mergeCustomers orders' customers') := by
  have h1 : List.Perm (mergeCustomers orders customers)
      (mergeCustomers orders customers') :=
    List.Perm.flatMap_left orders fun o _ => (hc.filter _).map _
  have h2 : List.Perm (mergeCustomers orders customers')
      (mergeCustomers orders' customers') :=
    List.Perm.flatMap_right _ ho
  exact h1.trans h2

theorem indexOrdersOf_eq_of_perm {merged merged' : List MOrder}
    (hp : List.Perm merged merged')
    (hinj : ∀ a ∈ merged, ∀ b ∈ merged, idxKey a = idxKey b → a = b) :
    indexOrdersOf merged = indexOrdersOf merged' := by
  unfold indexOrdersOf
  congr 1
  apply firstPer_congr
  apply sortBy_eq_of_perm (hp.filter _)
  intro x hx y hy
  exact hinj x (List.mem_of_mem_filter hx) y (List.mem_of_mem_filter hy)

theorem candidatesOf_perm {merged merged' : List MOrder} {I : List IndexRow}
    (hp : List.Perm merged merged') :
    List.Perm (candidatesOf merged I) (candidatesOf merged' I) := by
  unfold candidatesOf
  exact (List.Perm.flatMap_right _ (hp.filter _)).filter _

theorem firstRepOf_eq_of_perm {merged merged' : List MOrder} {I : List IndexRow}
    (hp : List.Perm merged merged')
    (hinj : ∀ a ∈ candidatesOf merged I, ∀ b ∈ candidatesOf merged I,
      repKey a = repKey b → a = b) :
    firstRepOf merged I = firstRepOf merged' I := by
  unfold firstRepOf
  congr 1
  apply firstPer_congr
  exact sortBy_eq_of_perm (candidatesOf_perm hp) hinj

/-- C6 amended: running the pipeline twice on identical input yields
identical output; and the whole output — including which transaction
identifiers are selected — is invariant under permutation of the rows of
both input tables, provided no two merged order rows share an index sort
key (entity, delivery, purchase) and no two follow-up candidates share a
follow-up sort key (entity, purchase) without the rows being equal. With
an exact tie the selected identifier can depend on input row order. -/
theorem pipeline_deterministic (orders orders' : List Order)
    (customers customers' : List Customer)
    (hpo : List.Perm orders orders') (hpc : List.Perm customers customers')
    (hidx : ∀ a ∈ mergeCustomers orders customers,
      ∀ b ∈ mergeCustomers orders customers, idxKey a = idxKey b → a = b)
    (hrep : ∀ a ∈ candidatesOf (mergeCustomers orders customers)
        (indexOrdersOf (mergeCustomers orders customers)),
      ∀ b ∈ candidatesOf (mergeCustomers orders customers)
        (indexOrdersOf (mergeCustomers orders customers)),
      repKey a = repKey b → a = b) :
    buildCohort orders customers = buildCohort orders' customers' ∧
    buildCohort orders customers = buildCohort orders customers := by
  refine ⟨?_, rfl⟩
  have hm : List.Perm (mergeCustomers orders customers)
      (mergeCustomers orders' customers') := mergeCustomers_perm hpo hpc
  have hsnap : snapshotOf orders = snapshotOf orders' := snapshotOf_perm hpo
  have hI : indexOrdersOf (mergeCustomers orders customers)
      = indexOrdersOf (mergeCustomers orders' customers') :=
    indexOrdersOf_eq_of_perm hm hidx
  have hR : firstRepOf (mergeCustomers orders customers)
        (indexOrdersOf (mergeCustomers orders customers))
      = firstRepOf (mergeCustomers orders' customers')
        (indexOrdersOf (mergeCustomers orders' customers')) := by
    rw [← hI]
    exact firstRepOf_eq_of_perm hm hrep
  simp only [buildCohort]
  rw [hR, hI, hsnap]

/-- Witness for C6 (amended): a permutation of the fixture (tie-free)
yields the identical build result. -/
theorem pipeline_deterministic_witness :
    buildCohort wOrders wCustomers
      = buildCohort [wOrderB, wOrderA, wOrderC] wCustomers ∧
    buildCohort wOrders wCustomers = buildCohort wOrders wCustomers :=
  pipeline_deterministic wOrders [wOrderB, wOrderA, wOrderC] wCustomers wCustomers
    (by decide) (by decide) (by decide) (by decide)

end Olist
